import Mathlib

/-!
# GoRent — verification of the download engine and wire codec

A shallow embedding of the GoRent BitTorrent client (packages `message`,
`peer`, `helpers/bitfield` and `torrent`) into Lean 4, together with proofs
of the frozen specification claims.

Conventions of the embedding:
* Go byte slices become `List Nat`, each element a byte value `< 256`.
* Go `int` quantities that stay far below `2^63` (piece indices, lengths,
  backlog counters) become `Nat` or `Int`; the one place Go performs a
  narrowing conversion (`uint32(len(m.Payload)+1)` in `Serialize`) is
  modelled with an explicit `% 2^32`.
* A streaming `io.Reader` becomes the `List Nat` of bytes it will yield;
  `io.ReadFull` failing (truncated stream) becomes an `Except.error`.
* Go functions that return `(T, error)` become `Except String T`; functions
  that mutate a caller-supplied buffer additionally return the new buffer.
* A Go runtime panic (out-of-range slice index) is modelled as `Option.none`.
-/

namespace GoRent

set_option autoImplicit false

/-! ## Byte-order helpers (`encoding/binary`, big endian) -/

/-- `binary.BigEndian.Uint32 b`: big-endian decoding of the first four bytes.
Out-of-range reads never occur at the call sites modelled here, so a default
byte `0` is used. -/
def uint32BE (b : List Nat) : Nat :=
  b.getD 0 0 * 2 ^ 24 + b.getD 1 0 * 2 ^ 16 + b.getD 2 0 * 2 ^ 8 + b.getD 3 0

/-- `binary.BigEndian.PutUint32`: the four big-endian bytes of `n % 2^32`. -/
def putUint32BE (n : Nat) : List Nat :=
  [n / 2 ^ 24 % 256, n / 2 ^ 16 % 256, n / 2 ^ 8 % 256, n % 256]

/-- `binary.BigEndian.Uint16 b`: big-endian decoding of the first two bytes. -/
def uint16BE (b : List Nat) : Nat :=
  b.getD 0 0 * 2 ^ 8 + b.getD 1 0

/-! ## `message/message.go` -/

/-- The wire-message IDs (`messageID` constants in `message/message.go`). -/
def MsgChoke : Nat := 0

def MsgUnchoke : Nat := 1

def MsgInterested : Nat := 2

def MsgNotInterested : Nat := 3

def MsgHave : Nat := 4

def MsgBitField : Nat := 5

def MsgRequest : Nat := 6

def MsgPiece : Nat := 7

def MsgCancel : Nat := 8

/-- `message.Message`: a 1-byte ID plus payload.  The Go `messageID` field is
a `uint8`, represented here as a `Nat` that is `< 256` for every value the
program constructs. -/
structure Message where
  id : Nat
  payload : List Nat
  deriving DecidableEq, Repr

/-- `(*Message).Serialize` from `message/message.go`.  The Go receiver is a
pointer that may be `nil` (the keep-alive), modelled as `Option Message`.
`uint32(len(m.Payload)+1)` narrows to 32 bits, hence the `% 2^32`; the
buffer has `4 + length` cells, and `copy(buffer[5:], m.Payload)` fills
`length - 1` of them with payload bytes (all of them whenever the length
did not wrap, which is every real message). -/
def serialize : Option Message → List Nat
  | none => [0, 0, 0, 0]
  | some m =>
    let length := (m.payload.length + 1) % 2 ^ 32
    putUint32BE length ++ m.id ::
      (m.payload.take (length - 1) ++
        List.replicate (length - 1 - m.payload.length) 0)

/-- `message.ReadMessage` from `message/message.go`: reads a 4-byte length
prefix, then `length` bytes; a zero length yields no message (`nil, nil` in
Go, i.e. `Except.ok (none, _)`); a stream ending mid-frame is an error.  The
unread remainder of the stream is returned alongside the result. -/
def readMessage (s : List Nat) : Except String (Option Message × List Nat) :=
  if s.length < 4 then
    .error "truncated length prefix"
  else
    let length := uint32BE (s.take 4)
    let rest := s.drop 4
    if length = 0 then
      .ok (none, rest)
    else if rest.length < length then
      .error "truncated frame"
    else
      let messageBuffer := rest.take length
      .ok (some ⟨messageBuffer.headD 0, messageBuffer.drop 1⟩, rest.drop length)

/-- `message.ParsePieceMessage` from `message/message.go`.  Go writes the
block into the caller's buffer with `copy(buf[begin:], data)`; the embedding
returns the updated buffer next to the byte count. -/
def parsePieceMessage (index : Nat) (buf : List Nat) (msg : Message) :
    Except String (Nat × List Nat) :=
  if msg.id ≠ MsgPiece then
    .error "Expected PIECE message"
  else if msg.payload.length < 8 then
    .error "Expected Payload greater than 8"
  else
    let parsedIndex := uint32BE (msg.payload.take 4)
    if parsedIndex ≠ index then
      .error "Got The Wrong Piece Here"
    else
      let beginOff := uint32BE ((msg.payload.drop 4).take 4)
      if beginOff ≥ buf.length then
        .error "Begin is too HIGH"
      else
        let data := msg.payload.drop 8
        if data.length + beginOff > buf.length then
          .error "Data is too long for the offset Begin"
        else
          .ok (data.length,
            buf.take beginOff ++ data ++ buf.drop (beginOff + data.length))

/-! ## `helpers/bitfield/bitfield.go` -/

/-- `bitfield.Bitfield`: a byte slice, one bit per piece, MSB first. -/
def Bitfield : Type := List Nat

/-- `Bitfield.CheckPiece` from `helpers/bitfield/bitfield.go`:
`bt[index/8] >> (7 - index%8) & 1 != 0`.  The Go code indexes the slice with
no bounds check; an out-of-range `index/8` panics at runtime, modelled as
`none`. -/
def checkPiece (bt : Bitfield) (index : Nat) : Option Bool :=
  let byteIndex := index / 8
  let offset := index % 8
  if byteIndex < List.length bt then
    some (List.getD bt byteIndex 0 >>> (7 - offset) &&& 1 != 0)
  else
    none

/-- `Bitfield.SetPiece` from `helpers/bitfield/bitfield.go`:
`bt[index/8] |= 1 << (7 - index%8)`, again with no bounds check (`none`
models the runtime panic). -/
def setPiece (bt : Bitfield) (index : Nat) : Option Bitfield :=
  let byteIndex := index / 8
  let offset := index % 8
  if byteIndex < List.length bt then
    some (List.set bt byteIndex (List.getD bt byteIndex 0 ||| 1 <<< (7 - offset)))
  else
    none

/-! ## `peer/peer.go` -/

/-- `peer.Peer`: an IPv4 address (four bytes) and a big-endian port. -/
structure Peer where
  ip : List Nat
  port : Nat
  deriving DecidableEq, Repr

/-- `peer.Unmarshal` from `peer/peer.go`: decodes the tracker's compact
peer list, six bytes per peer (`offset := i*peerSize`; four IP bytes, then a
big-endian `uint16` port).  The Go `for` loop over `i < numPeers` is the
`List.range` map. -/
def unmarshal (peersBin : List Nat) : Except String (List Peer) :=
  let peerSize := 6
  let numPeers := peersBin.length / peerSize
  if peersBin.length % peerSize ≠ 0 then
    .error "MalInformation recieved"
  else
    .ok ((List.range numPeers).map fun i =>
      let offset := i * peerSize
      { ip := (peersBin.drop offset).take 4
        port := uint16BE ((peersBin.drop (offset + 4)).take 2) })

/-! ## `torrent/torrent.go` — constants and piece geometry -/

/-- `torrent.BLOCKSIZE = 16384`. -/
def BLOCKSIZE : Nat := 16384

/-- `torrent.MAXBACKLOG = 100`. -/
def MAXBACKLOG : Nat := 100

/-- `(*Torrent).calculateBoundsForPiece` from `torrent/torrent.go`, over the
torrent's piece length and total length.  Go `int` is 64-bit; every quantity
reached here (`index`, `PieceLength`, `Length` and their products for
in-range pieces) is far below `2^63`, so `Int` without wraparound is a
faithful model. -/
def calculateBoundsForPiece (pieceLength length index : Int) : Int × Int :=
  let beginOff := index * pieceLength
  let endOff := beginOff + pieceLength
  (beginOff, if endOff > length then length else endOff)

/-- `(*Torrent).calculateLengthForPiece` from `torrent/torrent.go`. -/
def calculateLengthForPiece (pieceLength length index : Int) : Int :=
  (calculateBoundsForPiece pieceLength length index).2 -
    (calculateBoundsForPiece pieceLength length index).1

/-! ## `torrent/torrent.go` — reconnect back-off

`startDownloadWorker` keeps a `backoff` duration across its reconnect loop:

    backoff := time.Second
    for {
        client, err := peer.NewClient(...)
        if err != nil {
            time.Sleep(backoff)
            if backoff < 30*time.Second {
                backoff *= 2
            }
            continue
        }
        backoff = time.Second
        ...

Durations are modelled in whole seconds. -/

/-- The initial back-off (`backoff := time.Second`), also restored after any
successful connect (`backoff = time.Second`). -/
def initialBackoff : Nat := 1

/-- The update applied after each sleep:
`if backoff < 30*time.Second { backoff *= 2 }`. -/
def backoffAfterFailure (b : Nat) : Nat :=
  if b < 30 then b * 2 else b

/-- The duration `time.Sleep(backoff)` sleeps on the `(n+1)`-st consecutive
connection failure (the update to `backoff` happens after the sleep). -/
def backoffBeforeFailure : Nat → Nat
  | 0 => initialBackoff
  | n + 1 => backoffAfterFailure (backoffBeforeFailure n)

/-! ## `torrent/torrent.go` — the issue phase of `attemptToDownloadPiece`

The inner request-pipelining loop of `attemptToDownloadPiece`:

    if !state.client.Choked {
        for state.backlog < MAXBACKLOG && state.requested < pieceW.length {
            blockSize := BLOCKSIZE
            if pieceW.length-state.requested < blockSize {
                blockSize = pieceW.length - state.requested
            }
            err := client.SendRequest(pieceW.index, state.requested, blockSize)
            ...
            state.backlog++
            state.requested += blockSize
        }
    }

`issueRequests` returns the Request messages sent by one run of the inner
loop together with the final `(backlog, requested)` pair; `issuePhase` adds
the `Choked` guard around it. -/

/-- The arguments of one `client.SendRequest(index, begin, length)` call
(the payload of a Request message, cf. `formatRequest` in `peer/peer.go`). -/
structure Request where
  index : Nat
  beginOff : Nat
  length : Nat
  deriving DecidableEq, Repr

/-- The inner `for` loop of the issue phase. -/
def issueRequests (index len backlog requested : Nat) :
    List Request × Nat × Nat :=
  if h : backlog < MAXBACKLOG ∧ requested < len then
    let blockSize := if len - requested < BLOCKSIZE then len - requested else BLOCKSIZE
    let rest := issueRequests index len (backlog + 1) (requested + blockSize)
    (⟨index, requested, blockSize⟩ :: rest.1, rest.2)
  else
    ([], backlog, requested)
termination_by MAXBACKLOG - backlog
decreasing_by
  simp_wf
  omega

/-- The issue phase of one iteration of the outer download loop: the inner
loop runs only when the client is not choked. -/
def issuePhase (choked : Bool) (index len backlog requested : Nat) :
    List Request × Nat × Nat :=
  if choked then ([], backlog, requested)
  else issueRequests index len backlog requested

/-! ## `torrent/torrent.go` — the worker loop body

`startDownloadWorker`'s inner `for pieceW := range workQueue` body:

    if !client.Bitfield.CheckPiece(pieceW.index) {
        workQueue <- pieceW
        continue
    }
    buf, err := attemptToDownloadPiece(client, pieceW)
    if err != nil {
        client.Conn.Close()
        workQueue <- pieceW
        break
    }
    err = checkIntergrityForPiece(pieceW, buf)
    if err != nil {
        workQueue <- pieceW
        continue
    }
    client.SendHave(pieceW.index)
    results <- &pieceResult{pieceW.index, buf}

`attemptToDownloadPiece` performs socket I/O, so its outcome (a filled
buffer, or an error) is a parameter; `crypto/sha1` is Go's standard
library, outside this repository, so the hash function is a parameter as
well. -/

/-- `torrent.pieceWork`: one job on the shared work queue. -/
structure PieceWork where
  index : Nat
  hash : List Nat
  length : Nat
  deriving DecidableEq, Repr

/-- `torrent.pieceResult`: a verified piece handed to the main goroutine. -/
structure PieceResult where
  index : Nat
  buf : List Nat
  deriving DecidableEq, Repr

/-- `torrent.checkIntergrityForPiece` (sic): SHA-1 the buffer and compare
with the expected piece hash.  `sha1` abstracts `crypto/sha1.Sum`. -/
def checkIntergrityForPiece (sha1 : List Nat → List Nat)
    (pieceW : PieceWork) (buf : List Nat) : Except String Unit :=
  if sha1 buf = pieceW.hash then .ok ()
  else .error "The Hash Check Failed For This Piece"

/-- The externally visible actions the worker-loop body performs, in
program order. -/
inductive WorkerEffect where
  | closeConn
  | reenqueue (w : PieceWork)
  | sendHave (index : Nat)
  | publish (r : PieceResult)
  deriving DecidableEq, Repr

/-- How the loop body continues: `nextPiece` (Go `continue` or fallthrough,
keeping the same session) or `reconnect` (Go `break`, back to the dial
loop). -/
inductive LoopOutcome where
  | nextPiece
  | reconnect
  deriving DecidableEq, Repr

/-- The body of `for pieceW := range workQueue` in `startDownloadWorker`.
`hasPiece` is `client.Bitfield.CheckPiece(pieceW.index)`; `download` is the
outcome of `attemptToDownloadPiece`.  Note that the `client.SendHave` error
is discarded by the source, so the result is always published after it. -/
def workerHandlePiece (sha1 : List Nat → List Nat) (hasPiece : Bool)
    (pieceW : PieceWork) (download : Except String (List Nat)) :
    List WorkerEffect × LoopOutcome :=
  if !hasPiece then
    ([.reenqueue pieceW], .nextPiece)
  else
    match download with
    | .error _ => ([.closeConn, .reenqueue pieceW], .reconnect)
    | .ok buf =>
      match checkIntergrityForPiece sha1 pieceW buf with
      | .error _ => ([.reenqueue pieceW], .nextPiece)
      | .ok _ =>
        ([.sendHave pieceW.index, .publish ⟨pieceW.index, buf⟩], .nextPiece)

/-! ## `torrent/torrent.go` — the work-queue accounting of `Download`

`Download` seeds a buffered channel of capacity `len(t.PieceHashes)` with
one `pieceWork` per piece, spawns the workers, and receives results until
`donePieces == len(t.PieceHashes)`.  The channel operations that move a
`pieceWork` around are:

* a worker receiving a job (`for pieceW := range workQueue`),
* a worker re-enqueueing a job it holds (`workQueue <- pieceW`, three
  sites in `startDownloadWorker`),
* a worker handing a finished piece to the main goroutine
  (`results <- &pieceResult{...}` rendezvousing with `res := <-result`,
  after which `donePieces++`).

The counting abstraction tracks how many jobs sit in the queue, how many
are held by workers, and how many pieces have been delivered. -/

/-- Counters for the engine's work accounting: jobs buffered in
`workQueue`, jobs held by some worker, and results already received by
`Download`'s main loop. -/
structure EngineState where
  queue : Nat
  held : Nat
  delivered : Nat
  deriving DecidableEq, Repr

/-- One channel operation of the engine, as performed by
`startDownloadWorker` and `Download`. -/
inductive EngineStep : EngineState → EngineState → Prop
  | take (q h d : Nat) : EngineStep ⟨q + 1, h, d⟩ ⟨q, h + 1, d⟩
  | reenqueue (q h d : Nat) : EngineStep ⟨q, h + 1, d⟩ ⟨q + 1, h, d⟩
  | deliver (q h d : Nat) : EngineStep ⟨q, h + 1, d⟩ ⟨q, h, d + 1⟩

/-- States reachable from `Download`'s start state: the queue seeded with
`numPieces` jobs (the `for index, hash := range t.PieceHashes` loop),
nothing held, nothing delivered. -/
inductive EngineReachable (numPieces : Nat) : EngineState → Prop
  | init : EngineReachable numPieces ⟨numPieces, 0, 0⟩
  | step {s s' : EngineState} :
      EngineReachable numPieces s → EngineStep s s' → EngineReachable numPieces s'

/-! ## Helper lemmas -/

theorem getD_drop (l : List Nat) (n j d : Nat) :
    (l.drop n).getD j d = l.getD (n + j) d := by
  induction l generalizing n j with
  | nil => simp
  | cons a t ih =>
    cases n with
    | zero => simp
    | succ m =>
      have : m + 1 + j = (m + j) + 1 := by omega
      rw [this]
      simpa using ih m j

theorem getD_take (l : List Nat) (t j d : Nat) :
    (l.take t).getD j d = if j < t then l.getD j d else d := by
  induction l generalizing t j with
  | nil => simp
  | cons a tl ih =>
    cases t with
    | zero => simp
    | succ u =>
      cases j with
      | zero => simp
      | succ i => simpa using ih u i

/-! ## C8 — piece length formula -/

/-- C8: for every torrent with piece length `L` and total length `N` and
every piece index `i`, `calculateLengthForPiece i = min L (N - i*L)`: all
pieces have length `L` except possibly the last, whose length is the
residual. -/
theorem calculateLengthForPiece_eq_min (pieceLength length index : Int) :
    calculateLengthForPiece pieceLength length index =
      min pieceLength (length - index * pieceLength) := by
  simp only [calculateLengthForPiece, calculateBoundsForPiece]
  generalize index * pieceLength = b
  split <;> omega

/-! ## C2 — reconnect back-off (code bug)

The README documents the reconnect back-off as "1s → 2s → 4s … 30s max",
and the claim states the back-off never exceeds 30 s.  The source's cap
check `if backoff < 30*time.Second { backoff *= 2 }` stops doubling only
once the value has already reached or passed 30 s, so the sequence of
sleeps is 1, 2, 4, 8, 16, 32, 32, …: from the sixth consecutive failure on,
the worker sleeps 32 s, exceeding the documented 30 s cap. -/

/-- C2: evaluating the back-off recurrence at the failing input.  The first
sleep is 1 s and doubling holds up to the fifth failure, but the sixth
consecutive failure sleeps 32 s, which exceeds the claimed 30 s cap. -/
theorem backoff_exceeds_documented_cap :
    backoffBeforeFailure 0 = 1
    ∧ backoffBeforeFailure 1 = 2
    ∧ backoffBeforeFailure 2 = 4
    ∧ backoffBeforeFailure 3 = 8
    ∧ backoffBeforeFailure 4 = 16
    ∧ backoffBeforeFailure 5 = 32
    ∧ 30 < backoffBeforeFailure 5 := by
  decide

/-! ## C9 — bitfield accesses are unchecked -/

/-- C9: `Bitfield.CheckPiece` and `Bitfield.SetPiece` perform no bounds
check: for every bitfield and every index whose byte index `index / 8`
falls outside the slice, both operations hit an out-of-range slice index —
the Go runtime panic, modelled as `none` — instead of returning `false` or
an error. -/
theorem bitfield_out_of_range_panics (bt : Bitfield) (index : Nat)
    (h : List.length bt ≤ index / 8) :
    checkPiece bt index = none ∧ setPiece bt index = none := by
  have h' : ¬ index / 8 < List.length bt := by omega
  simp [checkPiece, setPiece, h']

theorem bitfield_out_of_range_panics_witness :
    checkPiece ([] : Bitfield) 0 = none ∧ setPiece ([] : Bitfield) 0 = none :=
  bitfield_out_of_range_panics [] 0 (by decide)

/-! ## C3 — worker dispatch on the hash check -/

/-- C3: in the worker loop, whenever `attemptToDownloadPiece` returns a
buffer whose SHA-1 equals the expected piece hash, the worker sends
`Have(W.index)` to the peer and publishes the `PieceResult` (index, buffer);
whenever the SHA-1 does not match, the `PieceWork` is re-enqueued on the
work queue and the same session is kept for the next `PieceWork`. -/
theorem worker_hash_dispatch (sha1 : List Nat → List Nat)
    (pieceW : PieceWork) (buf : List Nat) :
    (sha1 buf = pieceW.hash →
      workerHandlePiece sha1 true pieceW (.ok buf) =
        ([.sendHave pieceW.index, .publish ⟨pieceW.index, buf⟩], .nextPiece))
    ∧ (sha1 buf ≠ pieceW.hash →
      workerHandlePiece sha1 true pieceW (.ok buf) =
        ([.reenqueue pieceW], .nextPiece)) := by
  constructor <;> intro h <;>
    simp [workerHandlePiece, checkIntergrityForPiece, h]

theorem worker_hash_dispatch_witness :
    workerHandlePiece id true ⟨3, [1, 2], 2⟩ (.ok [1, 2]) =
      ([.sendHave 3, .publish ⟨3, [1, 2]⟩], .nextPiece)
    ∧ workerHandlePiece id true ⟨3, [9], 1⟩ (.ok [1, 2]) =
      ([.reenqueue ⟨3, [9], 1⟩], .nextPiece) :=
  ⟨(worker_hash_dispatch id ⟨3, [1, 2], 2⟩ [1, 2]).1 (by decide),
   (worker_hash_dispatch id ⟨3, [9], 1⟩ [1, 2]).2 (by decide)⟩

/-! ## C10 — work-queue accounting invariant -/

/-- C10: at every reachable state of the engine, the number of `PieceWork`
items in the queue plus the number held by workers equals the number of
pieces not yet delivered as results and never exceeds the queue capacity
`len(PieceHashes)`; consequently whenever a worker holds an item to
re-enqueue, the queue has a free slot, so the re-enqueue send completes
without blocking. -/
theorem engine_queue_invariant (numPieces : Nat) (s : EngineState)
    (h : EngineReachable numPieces s) :
    s.queue + s.held + s.delivered = numPieces
    ∧ s.queue + s.held ≤ numPieces
    ∧ (0 < s.held → s.queue < numPieces) := by
  induction h with
  | init => simp
  | step _ hstep ih =>
    cases hstep <;> simp_all <;> omega

theorem engine_queue_invariant_witness :
    (⟨0, 1, 0⟩ : EngineState).queue + (⟨0, 1, 0⟩ : EngineState).held
        + (⟨0, 1, 0⟩ : EngineState).delivered = 1
    ∧ (⟨0, 1, 0⟩ : EngineState).queue + (⟨0, 1, 0⟩ : EngineState).held ≤ 1
    ∧ (0 < (⟨0, 1, 0⟩ : EngineState).held → (⟨0, 1, 0⟩ : EngineState).queue < 1) :=
  engine_queue_invariant 1 ⟨0, 1, 0⟩
    (EngineReachable.step EngineReachable.init (EngineStep.take 0 0 0))

/-! ## C6 — bitfield set/check round trip -/

theorem shift_and_one_eq_testBit (x k : Nat) :
    (x >>> k &&& 1 != 0) = Nat.testBit x k := by
  rw [Nat.testBit_to_div_mod, Nat.and_one_is_mod, Nat.shiftRight_eq_div_pow]
  rcases Nat.mod_two_eq_zero_or_one (x / 2 ^ k) with h | h <;> simp [h]

theorem getD_set_eq (l : List Nat) (i v d : Nat) (h : i < l.length) :
    (l.set i v).getD i d = v := by
  rw [List.getD_eq_getElem?_getD, List.getElem?_set_self h]
  rfl

theorem getD_set_ne (l : List Nat) (i j v d : Nat) (h : i ≠ j) :
    (l.set i v).getD j d = l.getD j d := by
  rw [List.getD_eq_getElem?_getD, List.getElem?_set_ne h,
    List.getD_eq_getElem?_getD]

/-- C6: for every bitfield and every index `i` within its bit range, after
`SetPiece(i)` the call `CheckPiece(i)` returns `true`; every other in-range
index `j ≠ i` reads the same value as before the `SetPiece`; and the bit
addressed is MSB-first, i.e. bit `7 - i % 8` of byte `i / 8`. -/
theorem bitfield_set_check (bt : Bitfield) (i : Nat)
    (hi : i < 8 * List.length bt) :
    ((setPiece bt i).bind fun bt' => checkPiece bt' i) = some true
    ∧ (∀ j, j < 8 * List.length bt → j ≠ i →
        ((setPiece bt i).bind fun bt' => checkPiece bt' j) = checkPiece bt j)
    ∧ checkPiece bt i =
        some (Nat.testBit (List.getD bt (i / 8) 0) (7 - i % 8)) := by
  have hbyte : i / 8 < List.length bt := by omega
  refine ⟨?_, ?_, ?_⟩
  · simp only [setPiece, checkPiece, hbyte, if_pos, List.length_set,
      Option.some_bind, Option.some.injEq]
    rw [getD_set_eq _ _ _ _ hbyte, shift_and_one_eq_testBit,
      Nat.one_shiftLeft, Nat.testBit_or, Nat.testBit_two_pow_self]
    simp
  · intro j hj hne
    have hjbyte : j / 8 < List.length bt := by omega
    simp only [setPiece, checkPiece, hbyte, hjbyte, if_pos, List.length_set,
      Option.some_bind]
    by_cases hsame : i / 8 = j / 8
    · have hoff : i % 8 ≠ j % 8 := by omega
      have hbits : 7 - i % 8 ≠ 7 - j % 8 := by omega
      rw [← hsame, getD_set_eq _ _ _ _ hbyte, hsame,
        shift_and_one_eq_testBit, shift_and_one_eq_testBit,
        ← hsame, Nat.one_shiftLeft, Nat.testBit_or,
        Nat.testBit_two_pow_of_ne hbits]
      simp
    · rw [getD_set_ne _ _ _ _ _ hsame]
  · simp only [checkPiece, hbyte, if_pos, Option.some.injEq]
    rw [shift_and_one_eq_testBit]

theorem bitfield_set_check_witness :
    ((setPiece ([0] : Bitfield) 1).bind fun bt' => checkPiece bt' 1) = some true
    ∧ ((setPiece ([0] : Bitfield) 1).bind fun bt' => checkPiece bt' 0) =
        checkPiece ([0] : Bitfield) 0
    ∧ checkPiece ([0] : Bitfield) 1 =
        some (Nat.testBit (List.getD ([0] : Bitfield) (1 / 8) 0) (7 - 1 % 8)) :=
  ⟨(bitfield_set_check [0] 1 (by decide)).1,
   (bitfield_set_check [0] 1 (by decide)).2.1 0 (by decide) (by decide),
   (bitfield_set_check [0] 1 (by decide)).2.2⟩

/-! ## C7 — compact peer-list decoding -/

/-- C7: `Unmarshal` on a compact peer-list byte string succeeds if and only
if the input length is a multiple of 6 (otherwise it returns an error and
no peers), and on success returns exactly `len/6` peers, the `i`-th taking
bytes `6i..6i+4` as its IPv4 address and bytes `6i+4..6i+6` as its
big-endian port. -/
theorem unmarshal_compact_peers (peersBin : List Nat) :
    ((unmarshal peersBin).toOption.isSome = true ↔ peersBin.length % 6 = 0)
    ∧ ∀ peers, unmarshal peersBin = .ok peers →
        peers.length = peersBin.length / 6
        ∧ ∀ i, i < peers.length →
            (peers.getD i ⟨[], 0⟩).ip.length = 4
            ∧ (∀ j, j < 4 →
                (peers.getD i ⟨[], 0⟩).ip.getD j 0 = peersBin.getD (6 * i + j) 0)
            ∧ (peers.getD i ⟨[], 0⟩).port =
                peersBin.getD (6 * i + 4) 0 * 256 + peersBin.getD (6 * i + 5) 0 := by
  constructor
  · by_cases h : peersBin.length % 6 = 0 <;>
      simp [unmarshal, h, Except.toOption]
  · intro peers hok
    by_cases h : peersBin.length % 6 = 0
    · simp only [unmarshal, h, ne_eq, not_true_eq_false, if_false,
        Except.ok.injEq] at hok
      subst hok
      refine ⟨by simp, ?_⟩
      intro i hi
      simp only [List.length_map, List.length_range] at hi
      have hle : 6 * (i + 1) ≤ peersBin.length := by omega
      have hpeer : (((List.range (peersBin.length / 6)).map fun i =>
          let offset := i * 6
          ({ ip := (peersBin.drop offset).take 4
             port := uint16BE ((peersBin.drop (offset + 4)).take 2) } : Peer)).getD
            i ⟨[], 0⟩) =
          ⟨(peersBin.drop (i * 6)).take 4,
            uint16BE ((peersBin.drop (i * 6 + 4)).take 2)⟩ := by
        rw [List.getD_eq_getElem?_getD, List.getElem?_map, List.getElem?_range hi]
        rfl
      rw [hpeer]
      refine ⟨?_, ?_, ?_⟩
      · simp only [List.length_take, List.length_drop]
        omega
      · intro j hj
        simp only [getD_take, getD_drop, hj, if_pos]
        have : i * 6 + j = 6 * i + j := by ring
        rw [this]
      · simp only [uint16BE, getD_take, getD_drop]
        norm_num
        have h5 : i * 6 + 4 + 1 = 6 * i + 5 := by ring
        have h4 : i * 6 + 4 = 6 * i + 4 := by ring
        rw [h5, h4]
    · simp [unmarshal, h] at hok

theorem unmarshal_compact_peers_witness :
    ((unmarshal [10, 0, 0, 7, 1, 44]).toOption.isSome = true ↔
      (6 : Nat) % 6 = 0)
    ∧ ([(⟨[10, 0, 0, 7], 300⟩ : Peer)].getD 0 ⟨[], 0⟩).ip.length = 4
    ∧ ([(⟨[10, 0, 0, 7], 300⟩ : Peer)].getD 0 ⟨[], 0⟩).ip.getD 2 0 =
        [10, 0, 0, 7, 1, 44].getD (6 * 0 + 2) 0
    ∧ ([(⟨[10, 0, 0, 7], 300⟩ : Peer)].getD 0 ⟨[], 0⟩).port =
        [10, 0, 0, 7, 1, 44].getD (6 * 0 + 4) 0 * 256 +
          [10, 0, 0, 7, 1, 44].getD (6 * 0 + 5) 0 :=
  ⟨(unmarshal_compact_peers [10, 0, 0, 7, 1, 44]).1,
   ((unmarshal_compact_peers [10, 0, 0, 7, 1, 44]).2 [⟨[10, 0, 0, 7], 300⟩]
      (by rfl) |>.2 0 (by decide)).1,
   ((unmarshal_compact_peers [10, 0, 0, 7, 1, 44]).2 [⟨[10, 0, 0, 7], 300⟩]
      (by rfl) |>.2 0 (by decide)).2.1 2 (by decide),
   ((unmarshal_compact_peers [10, 0, 0, 7, 1, 44]).2 [⟨[10, 0, 0, 7], 300⟩]
      (by rfl) |>.2 0 (by decide)).2.2⟩

/-! ## C4 — message round-trip -/

theorem uint32BE_putUint32BE (n : Nat) (h : n < 2 ^ 32) :
    uint32BE (putUint32BE n) = n := by
  simp only [uint32BE, putUint32BE, List.getD_cons_zero, List.getD_cons_succ]
  omega

theorem take_four_putUint32BE (n : Nat) (l : List Nat) :
    (putUint32BE n ++ l).take 4 = putUint32BE n :=
  List.take_left' rfl

theorem drop_four_putUint32BE (n : Nat) (l : List Nat) :
    (putUint32BE n ++ l).drop 4 = l :=
  List.drop_left' rfl

theorem length_putUint32BE_append (n : Nat) (l : List Nat) :
    (putUint32BE n ++ l).length = 4 + l.length := by
  simp [putUint32BE]
  omega

theorem readMessage_frame (idb : Nat) (payload rest : List Nat)
    (h : payload.length + 1 < 2 ^ 32) :
    readMessage ((putUint32BE (payload.length + 1) ++ (idb :: payload)) ++ rest) =
      .ok (some ⟨idb, payload⟩, rest) := by
  rw [List.append_assoc]
  simp only [readMessage, take_four_putUint32BE, drop_four_putUint32BE,
    length_putUint32BE_append, uint32BE_putUint32BE _ h]
  rw [if_neg (by omega), if_neg (by omega),
    if_neg (by simp only [List.length_append, List.length_cons]; omega),
    List.take_left' (by simp), List.drop_left' (by simp)]
  simp

/-- C4: serializing a message and reading it back reconstructs the same ID
and the same payload bytes (for any id a `uint8` can hold and any payload a
real message can carry, the trailing stream coming through untouched); the
nil keep-alive serializes to exactly the four bytes `00 00 00 00`; and
reading a frame whose length prefix is 0 yields no message. -/
theorem message_serialize_read_roundtrip :
    (∀ (m : Message) (rest : List Nat), m.id < 256 →
        m.payload.length + 1 < 2 ^ 32 →
        readMessage (serialize (some m) ++ rest) = .ok (some m, rest))
    ∧ serialize none = [0, 0, 0, 0]
    ∧ ∀ rest : List Nat, readMessage ([0, 0, 0, 0] ++ rest) = .ok (none, rest) := by
  refine ⟨?_, rfl, ?_⟩
  · intro m rest _ hlen
    have hmod : (m.payload.length + 1) % 2 ^ 32 = m.payload.length + 1 :=
      Nat.mod_eq_of_lt hlen
    have hser : serialize (some m) =
        putUint32BE (m.payload.length + 1) ++ (m.id :: m.payload) := by
      simp only [serialize]
      rw [hmod]
      simp
    rw [hser]
    exact readMessage_frame m.id m.payload rest hlen
  · intro rest
    simp [readMessage, uint32BE]

theorem message_serialize_read_roundtrip_witness :
    readMessage (serialize (some ⟨MsgPiece, [0, 0, 0, 2, 0, 0, 0, 0, 170]⟩) ++ [7]) =
      .ok (some ⟨MsgPiece, [0, 0, 0, 2, 0, 0, 0, 0, 170]⟩, [7]) :=
  message_serialize_read_roundtrip.1 ⟨MsgPiece, [0, 0, 0, 2, 0, 0, 0, 0, 170]⟩ [7]
    (by decide) (by decide)

/-! ## C5 — parsing a Piece payload into the buffer -/

theorem getD_append_if (l₁ l₂ : List Nat) (j d : Nat) :
    (l₁ ++ l₂).getD j d =
      if j < l₁.length then l₁.getD j d else l₂.getD (j - l₁.length) d := by
  split
  · exact List.getD_append _ _ _ _ (by assumption)
  · exact List.getD_append_right _ _ _ _ (by omega)

theorem getD_overwrite (buf data : List Nat) (p k d : Nat)
    (hp : p + data.length ≤ buf.length) :
    ((buf.take p ++ data) ++ buf.drop (p + data.length)).getD k d =
      if k < p then buf.getD k d
      else if k < p + data.length then data.getD (k - p) d
      else buf.getD k d := by
  have hlen1 : (buf.take p).length = p := by
    simp only [List.length_take]
    omega
  have hlen2 : (buf.take p ++ data).length = p + data.length := by
    simp only [List.length_append, hlen1]
  rw [getD_append_if, hlen2]
  by_cases h1 : k < p + data.length
  · rw [if_pos h1, getD_append_if, hlen1]
    by_cases h2 : k < p
    · rw [if_pos h2, if_pos h2, getD_take, if_pos h2]
    · rw [if_neg h2, if_neg h2, if_pos h1]
  · rw [if_neg h1, getD_drop]
    have hk : p + data.length + (k - (p + data.length)) = k := by omega
    rw [hk, if_neg (by omega), if_neg h1]

/-- C5: `ParsePieceMessage(index, buf, msg)`, for every Piece message, fails
exactly when the payload is shorter than 8 bytes, or the first 4 bytes
decoded big-endian differ from the expected index, or `begin` (bytes 4..8)
is `≥ len(buf)`, or `begin + |data| > len(buf)`; otherwise it copies the
data bytes into `buf` starting at offset `begin`, leaves all other bytes of
`buf` unchanged, and returns `|data|`. -/
theorem parsePieceMessage_spec (index : Nat) (buf : List Nat) (msg : Message)
    (hid : msg.id = MsgPiece) :
    ((parsePieceMessage index buf msg).toOption.isSome = true ↔
      ¬(msg.payload.length < 8
        ∨ uint32BE (msg.payload.take 4) ≠ index
        ∨ uint32BE ((msg.payload.drop 4).take 4) ≥ buf.length
        ∨ uint32BE ((msg.payload.drop 4).take 4) + (msg.payload.drop 8).length
            > buf.length))
    ∧ ∀ n newBuf, parsePieceMessage index buf msg = .ok (n, newBuf) →
        n = (msg.payload.drop 8).length
        ∧ newBuf.length = buf.length
        ∧ (∀ k, k < uint32BE ((msg.payload.drop 4).take 4) →
            newBuf.getD k 0 = buf.getD k 0)
        ∧ (∀ j, j < (msg.payload.drop 8).length →
            newBuf.getD (uint32BE ((msg.payload.drop 4).take 4) + j) 0 =
              (msg.payload.drop 8).getD j 0)
        ∧ (∀ k,
            uint32BE ((msg.payload.drop 4).take 4) + (msg.payload.drop 8).length
              ≤ k →
            newBuf.getD k 0 = buf.getD k 0) := by
  simp only [parsePieceMessage]
  rw [if_neg (by simp [hid])]
  by_cases hA : msg.payload.length < 8
  · rw [if_pos hA]
    exact ⟨iff_of_false (by simp [Except.toOption]) (fun h => h (Or.inl hA)),
      fun n newBuf h => absurd h (by simp)⟩
  · rw [if_neg hA]
    by_cases hB : uint32BE (msg.payload.take 4) = index
    · rw [if_neg (by simp [hB])]
      by_cases hC : uint32BE ((msg.payload.drop 4).take 4) ≥ buf.length
      · rw [if_pos hC]
        exact ⟨iff_of_false (by simp [Except.toOption])
            (fun h => h (Or.inr (Or.inr (Or.inl hC)))),
          fun n newBuf h => absurd h (by simp)⟩
      · rw [if_neg hC]
        by_cases hD : (msg.payload.drop 8).length +
            uint32BE ((msg.payload.drop 4).take 4) > buf.length
        · rw [if_pos hD]
          exact ⟨iff_of_false (by simp [Except.toOption])
              (fun h => h (Or.inr (Or.inr (Or.inr (by omega))))),
            fun n newBuf h => absurd h (by simp)⟩
        · rw [if_neg hD]
          constructor
          · refine iff_of_true (by simp [Except.toOption]) ?_
            intro h
            rcases h with h | h | h | h
            · exact hA h
            · exact h hB
            · exact hC h
            · omega
          · intro n newBuf h
            simp only [Except.ok.injEq, Prod.mk.injEq] at h
            obtain ⟨hn, hbuf⟩ := h
            subst hn
            subst hbuf
            have hp : uint32BE ((msg.payload.drop 4).take 4) +
                (msg.payload.drop 8).length ≤ buf.length := by omega
            refine ⟨rfl, ?_, ?_, ?_, ?_⟩
            · simp only [List.length_append, List.length_take,
                List.length_drop] at hD ⊢
              omega
            · intro k hk
              rw [getD_overwrite _ _ _ _ _ hp, if_pos hk]
            · intro j hj
              rw [getD_overwrite _ _ _ _ _ hp, if_neg (by omega),
                if_pos (by omega)]
              have hj' : uint32BE ((msg.payload.drop 4).take 4) + j -
                  uint32BE ((msg.payload.drop 4).take 4) = j := by omega
              rw [hj']
            · intro k hk
              rw [getD_overwrite _ _ _ _ _ hp, if_neg (by omega),
                if_neg (by omega)]
    · rw [if_pos (by simp [hB])]
      exact ⟨iff_of_false (by simp [Except.toOption])
          (fun h => h (Or.inr (Or.inl hB))),
        fun n newBuf h => absurd h (by simp)⟩

theorem parsePieceMessage_spec_witness :
    (parsePieceMessage 1 [9, 9, 9, 9]
        ⟨7, [0, 0, 0, 1, 0, 0, 0, 1, 5, 6]⟩).toOption.isSome = true
    ∧ ([9, 5, 6, 9] : List Nat).length = ([9, 9, 9, 9] : List Nat).length :=
  ⟨(parsePieceMessage_spec 1 [9, 9, 9, 9]
      ⟨7, [0, 0, 0, 1, 0, 0, 0, 1, 5, 6]⟩ rfl).1.mpr (by decide),
   ((parsePieceMessage_spec 1 [9, 9, 9, 9]
      ⟨7, [0, 0, 0, 1, 0, 0, 0, 1, 5, 6]⟩ rfl).2 2 [9, 5, 6, 9] rfl).2.1⟩

/-! ## C1 — the issue phase of the per-piece download loop -/

theorem issueRequests_stop (index len backlog requested : Nat)
    (h : ¬(backlog < MAXBACKLOG ∧ requested < len)) :
    issueRequests index len backlog requested = ([], backlog, requested) := by
  rw [issueRequests]
  simp [h]

theorem issueRequests_go (index len backlog requested : Nat)
    (h : backlog < MAXBACKLOG ∧ requested < len) :
    issueRequests index len backlog requested =
      ((⟨index, requested,
          if len - requested < BLOCKSIZE then len - requested else BLOCKSIZE⟩ :
            Request) ::
        (issueRequests index len (backlog + 1)
          (requested +
            if len - requested < BLOCKSIZE then len - requested else BLOCKSIZE)).1,
       (issueRequests index len (backlog + 1)
          (requested +
            if len - requested < BLOCKSIZE then len - requested else BLOCKSIZE)).2) := by
  rw [issueRequests]
  simp [h]

theorem backlog_count (index len backlog requested : Nat) :
    (issueRequests index len backlog requested).2.1 =
      backlog + (issueRequests index len backlog requested).1.length := by
  induction backlog, requested using issueRequests.induct index len with
  | case1 backlog requested h bs ih =>
    rw [issueRequests_go _ _ _ _ h]
    simp only [List.length_cons]
    simp only [bs, dite_eq_ite] at ih
    omega
  | case2 backlog requested h =>
    rw [issueRequests_stop _ _ _ _ h]
    simp

theorem requested_sum (index len backlog requested : Nat) :
    (issueRequests index len backlog requested).2.2 =
      requested + ((issueRequests index len backlog requested).1.map
        Request.length).sum := by
  induction backlog, requested using issueRequests.induct index len with
  | case1 backlog requested h bs ih =>
    rw [issueRequests_go _ _ _ _ h]
    simp only [List.map_cons, List.sum_cons]
    simp only [bs, dite_eq_ite] at ih
    omega
  | case2 backlog requested h =>
    rw [issueRequests_stop _ _ _ _ h]
    simp

theorem head_requested (index len backlog requested : Nat) :
    ((issueRequests index len backlog requested).1.headD
      ⟨index, requested, 0⟩).beginOff = requested := by
  by_cases h : backlog < MAXBACKLOG ∧ requested < len
  · rw [issueRequests_go _ _ _ _ h]
    simp
  · rw [issueRequests_stop _ _ _ _ h]
    simp

theorem forall_requests (index len backlog requested : Nat) :
    (issueRequests index len backlog requested).1.Forall
      (fun r => r.index = index ∧ r.beginOff < len
        ∧ r.length = min BLOCKSIZE (len - r.beginOff)) := by
  induction backlog, requested using issueRequests.induct index len with
  | case1 backlog requested h bs ih =>
    rw [issueRequests_go _ _ _ _ h]
    rw [List.forall_cons]
    refine ⟨⟨rfl, h.2, ?_⟩, ?_⟩
    · simp only [min_def]
      split <;> split <;> omega
    · simp only [bs, dite_eq_ite] at ih
      exact ih
  | case2 backlog requested h =>
    rw [issueRequests_stop _ _ _ _ h]
    simp [List.Forall]

theorem chain_requests (index len backlog requested : Nat) :
    List.Chain' (fun a b => b.beginOff = a.beginOff + a.length)
      (issueRequests index len backlog requested).1 := by
  induction backlog, requested using issueRequests.induct index len with
  | case1 backlog requested h bs ih =>
    rw [issueRequests_go _ _ _ _ h]
    rw [List.chain'_cons']
    simp only [bs, dite_eq_ite] at ih
    refine ⟨?_, ih⟩
    intro b hb
    have h4 := head_requested index len (backlog + 1)
      (requested + if len - requested < BLOCKSIZE then len - requested else BLOCKSIZE)
    rcases hrest : (issueRequests index len (backlog + 1)
        (requested + if len - requested < BLOCKSIZE then len - requested else BLOCKSIZE)).1
      with _ | ⟨x, xs⟩
    · rw [hrest] at hb
      simp at hb
    · rw [hrest] at hb h4
      simp only [List.head?_cons, Option.mem_some_iff] at hb
      subst hb
      simpa using h4
  | case2 backlog requested h =>
    rw [issueRequests_stop _ _ _ _ h]
    simp

theorem count_bound (index len backlog requested : Nat) :
    (issueRequests index len backlog requested).1 = [] ∨
      backlog + (issueRequests index len backlog requested).1.length ≤ MAXBACKLOG := by
  induction backlog, requested using issueRequests.induct index len with
  | case1 backlog requested h bs ih =>
    rw [issueRequests_go _ _ _ _ h]
    right
    simp only [bs, dite_eq_ite] at ih
    rcases ih with ih | ih
    · simp only [List.length_cons, ih, List.length_nil]
      omega
    · simp only [List.length_cons]
      omega
  | case2 backlog requested h =>
    rw [issueRequests_stop _ _ _ _ h]
    simp

theorem dropLast_full_blocks (index len backlog requested : Nat) :
    (issueRequests index len backlog requested).1.dropLast.Forall
      (fun r => r.length = BLOCKSIZE) := by
  induction backlog, requested using issueRequests.induct index len with
  | case1 backlog requested h bs ih =>
    rw [issueRequests_go _ _ _ _ h]
    simp only [bs, dite_eq_ite] at ih
    rcases hrest : (issueRequests index len (backlog + 1)
        (requested + if len - requested < BLOCKSIZE then len - requested else BLOCKSIZE)).1
      with _ | ⟨x, xs⟩
    · simp [List.Forall]
    · simp only [List.dropLast_cons₂, List.forall_cons]
      constructor
      · by_cases hb : len - requested < BLOCKSIZE
        · exfalso
          have hstop := issueRequests_stop index len (backlog + 1)
            (requested + if len - requested < BLOCKSIZE then len - requested else BLOCKSIZE)
            (by rw [if_pos hb]; omega)
          rw [hstop] at hrest
          simp at hrest
        · simp [hb]
      · rw [hrest] at ih
        exact ih
  | case2 backlog requested h =>
    rw [issueRequests_stop _ _ _ _ h]
    simp [List.Forall]

theorem short_block_ends_piece (index len backlog requested : Nat) :
    (issueRequests index len backlog requested).1.Forall
      (fun r => r.length = BLOCKSIZE ∨
        (issueRequests index len backlog requested).2.2 = len) := by
  induction backlog, requested using issueRequests.induct index len with
  | case1 backlog requested h bs ih =>
    rw [issueRequests_go _ _ _ _ h]
    rw [List.forall_cons]
    simp only [bs, dite_eq_ite] at ih
    constructor
    · by_cases hb : len - requested < BLOCKSIZE
      · right
        have hstop := issueRequests_stop index len (backlog + 1)
          (requested + if len - requested < BLOCKSIZE then len - requested else BLOCKSIZE)
          (by rw [if_pos hb]; omega)
        rw [hstop, if_pos hb]
        simp only []
        omega
      · left
        simp [hb]
    · revert ih
      apply List.Forall.imp
      intro r hr
      rcases hr with hr | hr
      · exact Or.inl hr
      · exact Or.inr hr
  | case2 backlog requested h =>
    rw [issueRequests_stop _ _ _ _ h]
    simp [List.Forall]

/-- C1: in the issue phase of `attemptToDownloadPiece`, requests are sent
only while the client is not choked (a choked iteration sends nothing),
only while `backlog < MAXBACKLOG` (100) and `requested < W.length`; each
sent Request carries the current `requested` as its offset (the first
request starts at the incoming `requested`, each next one at the previous
offset plus its size) and size `min(16384, W.length - requested)`, after
which `backlog` is incremented by 1 and `requested` advanced by that size
(the final pair equals the start plus the count and the sizes sent) — so
every request is exactly 16384 bytes except possibly the last of the piece
(a request shorter than 16384 bytes leaves `requested = W.length`, so no
further request of this piece is ever issued). -/
theorem download_piece_issue_phase (index len backlog requested : Nat) :
    issuePhase true index len backlog requested = ([], backlog, requested)
    ∧ issuePhase false index len backlog requested =
        issueRequests index len backlog requested
    ∧ (issueRequests index len backlog requested).2.1 =
        backlog + (issueRequests index len backlog requested).1.length
    ∧ (issueRequests index len backlog requested).2.2 =
        requested +
          ((issueRequests index len backlog requested).1.map Request.length).sum
    ∧ (issueRequests index len backlog requested).1.Forall
        (fun r => r.index = index ∧ r.beginOff < len
          ∧ r.length = min BLOCKSIZE (len - r.beginOff))
    ∧ ((issueRequests index len backlog requested).1.headD
        ⟨index, requested, 0⟩).beginOff = requested
    ∧ List.Chain' (fun a b => b.beginOff = a.beginOff + a.length)
        (issueRequests index len backlog requested).1
    ∧ ((issueRequests index len backlog requested).1 = [] ∨
        backlog + (issueRequests index len backlog requested).1.length
          ≤ MAXBACKLOG)
    ∧ (issueRequests index len backlog requested).1.dropLast.Forall
        (fun r => r.length = BLOCKSIZE)
    ∧ (issueRequests index len backlog requested).1.Forall
        (fun r => r.length = BLOCKSIZE ∨
          (issueRequests index len backlog requested).2.2 = len) :=
  ⟨rfl, rfl,
   backlog_count index len backlog requested,
   requested_sum index len backlog requested,
   forall_requests index len backlog requested,
   head_requested index len backlog requested,
   chain_requests index len backlog requested,
   count_bound index len backlog requested,
   dropLast_full_blocks index len backlog requested,
   short_block_ends_piece index len backlog requested⟩

end GoRent
